import Mathlib

/-!
Verification of the `commitgen` CLI (`src/commitgen/cli.py`): a shallow
embedding of its string processing, low-value-commit filtering, interactive
confirm/regenerate loop, and subprocess effects, together with theorems
settling the specification's claims about them.

Strings are modelled as `List Char` (via `String.data`) so that everything
computes by structural recursion.  Python's case-insensitive regex search is
modelled by ASCII lowercasing plus explicit pattern-at-position matchers for
the three fixed patterns in `LOW_VALUE_PATTERNS`.
-/

namespace Commitgen

/-- Python's `str.strip()` whitespace class (ASCII): space, tab, newline,
carriage return, vertical tab, form feed. -/
def isWS (c : Char) : Bool :=
  c = ' ' || c = '\t' || c = '\n' || c = '\r' || c = Char.ofNat 11 || c = Char.ofNat 12

/-- Python `str.strip()`: drop whitespace from both ends. -/
def pyStrip (l : List Char) : List Char :=
  ((l.dropWhile isWS).reverse.dropWhile isWS).reverse

/-- ASCII lowercasing, modelling `str.lower()` / `re.IGNORECASE` for the
ASCII-only patterns used here. -/
def toLowerL (l : List Char) : List Char := l.map Char.toLower

/-- `re.search` scaffold: does the position matcher `p` fire at some suffix? -/
def containsAt (p : List Char → Bool) : List Char → Bool
  | [] => p []
  | c :: rest => p (c :: rest) || containsAt p rest

/-- `\s*` then the literal word `w` as a prefix. -/
def wsStarThen (w : List Char) : List Char → Bool
  | [] => w.isPrefixOf []
  | c :: rest => w.isPrefixOf (c :: rest) || (isWS c && wsStarThen w rest)

/-- `\s+` then the literal word `w` as a prefix. -/
def wsPlusThen (w : List Char) : List Char → Bool
  | [] => false
  | c :: rest => isWS c && wsStarThen w rest

/-- Literal `w1`, then `\s+`, then literal `w2`, anchored at the current
position. -/
def seqAt (w1 w2 : List Char) (l : List Char) : Bool :=
  w1.isPrefixOf l && wsPlusThen w2 (l.drop w1.length)

/-- Position matcher for `(add|remove) debug`. -/
def lowPat1At (l : List Char) : Bool :=
  "add debug".data.isPrefixOf l || "remove debug".data.isPrefixOf l

/-- Position matcher for `(print|log)\s+statement`. -/
def lowPat2At (l : List Char) : Bool :=
  seqAt "print".data "statement".data l || seqAt "log".data "statement".data l

/-- Position matcher for `minor\s+(change|update)`. -/
def lowPat3At (l : List Char) : Bool :=
  seqAt "minor".data "change".data l || seqAt "minor".data "update".data l

/-- The three compiled patterns of `LOW_VALUE_PATTERNS` in `cli.py`, each as
a case-insensitive `re.search` over the title. -/
def LOW_VALUE_PATTERNS : List (List Char → Bool) :=
  [fun l => containsAt lowPat1At l,
   fun l => containsAt lowPat2At l,
   fun l => containsAt lowPat3At l]

/-- `is_low_value_commit` from `cli.py`: `any(p.search(title) for p in
LOW_VALUE_PATTERNS)`, with `re.IGNORECASE` modelled by lowercasing. -/
def is_low_value_commit (title : String) : Bool :=
  LOW_VALUE_PATTERNS.any (fun p => p (toLowerL title.data))

/-- The naive response parsing in `query_commit_message` (`cli.py` lines
160-164): strip the content, split once on the first newline, strip the
pieces; a missing second piece becomes the empty body. -/
def parseNaive (content : List Char) : List Char × List Char :=
  let s := pyStrip content
  let pre := s.takeWhile (fun c => c ≠ '\n')
  let rest := s.dropWhile (fun c => c ≠ '\n')
  match rest with
  | [] => (pyStrip pre, [])
  | _ :: tail => (pyStrip pre, pyStrip tail)

/-- Title component of the parsed model response. -/
def naiveTitle (content : String) : String := ⟨(parseNaive content.data).1⟩

/-- Body component of the parsed model response. -/
def naiveBody (content : String) : String := ⟨(parseNaive content.data).2⟩

/-- Python `str.lower()` on the string level (ASCII). -/
def strLower (s : String) : String := ⟨toLowerL s.data⟩

/-- `confirm_commit`'s returned choice: `typer.prompt` substitutes the
default `"y"` for empty input, and the result is lowercased. -/
def confirmChoice (input : String) : String :=
  strLower (if input = "" then "y" else input)

/-- Final state of one run of the `generate` command. -/
inductive Outcome where
  | committed : Outcome
  | skipped : Outcome
  | lowValueExit : Outcome
  | aborted : Outcome
  | noStagedChanges : Outcome
  deriving DecidableEq, Repr

/-- Observable effects of a run: the outcome, how many completion requests
were issued, how many confirmation prompts were shown, and the
(title, body) pairs passed to `make_commit`. -/
structure RunResult where
  outcome : Outcome
  attempts : Nat
  prompts : Nat
  commits : List (String × String)
  deriving DecidableEq, Repr

/-- The `for _ in range(3)` loop of `generate` (`cli.py` lines 206-225).
`resp i` is the provider's raw reply on attempt `i` and `choice i` the
user's raw input on attempt `i`; `fuel` counts the remaining iterations.
Exhausting the fuel is the "Maximum retries reached" abort. -/
def runLoop (resp choice : Nat → String) : Nat → Nat → RunResult
  | _, 0 => ⟨.aborted, 0, 0, []⟩
  | i, fuel + 1 =>
    let title := naiveTitle (resp i)
    let body := naiveBody (resp i)
    if is_low_value_commit title then ⟨.lowValueExit, 1, 0, []⟩
    else
      let c := confirmChoice (choice i)
      if c = "y" then ⟨.committed, 1, 1, [(title, body)]⟩
      else if c = "s" then ⟨.skipped, 1, 1, []⟩
      else
        let r := runLoop resp choice (i + 1) fuel
        ⟨r.outcome, r.attempts + 1, r.prompts + 1, r.commits⟩

/-- The `generate` command: short-circuit when the stripped staged diff is
empty, otherwise run the bounded confirm/regenerate loop. -/
def generate (diff : String) (resp choice : Nat → String) : RunResult :=
  if pyStrip diff.data = [] then ⟨.noStagedChanges, 0, 0, []⟩
  else runLoop resp choice 0 3

/-- Effects of `make_commit` (`cli.py` lines 183-193): the text written to
the temporary file and the subprocess argument vector, with `tmp` standing
for the generated temporary file name. -/
def make_commit (tmp title body : String) : String × List String :=
  (if body ≠ "" then title ++ "\n\n" ++ body else title,
   ["git", "commit", "-F", tmp])

/-- Result of a `subprocess.run` invocation, as observed by the caller. -/
structure ProcResult where
  returncode : Int
  stdout : String
  deriving DecidableEq, Repr

/-- `get_full_staged_diff` (`cli.py` lines 99-110) as a function of the
subprocess result: stdout on exit code 0, the empty string otherwise. -/
def get_full_staged_diff (r : ProcResult) : String :=
  if r.returncode = 0 then r.stdout else ""

/-- Split a text into its lines at newline characters (Python
`splitlines`-style scaffold used by the validating parser and the diff
splitter). -/
def toLines : List Char → List (List Char)
  | [] => [[]]
  | c :: rest =>
    if c = '\n' then [] :: toLines rest
    else
      match toLines rest with
      | [] => [[c]]
      | l :: ls => (c :: l) :: ls

/-- Join lines with newline separators (inverse of `toLines` on
newline-free lines). -/
def unlines : List (List Char) → List Char
  | [] => []
  | [l] => l
  | l :: l2 :: ls => l ++ '\n' :: unlines (l2 :: ls)

/-- `\w` of the conventional-commit grammar: ASCII alphanumeric or
underscore. -/
def isWordChar (c : Char) : Bool := c.isAlphanum || c = '_'

/-- A character allowed in `[\w-]`, the scope body. -/
def isScopeChar (c : Char) : Bool := isWordChar c || c = '-'

/-- `: .+` at the current position: a colon, a space, and at least one
further non-newline character. -/
def colonSummary : List Char → Bool
  | c1 :: c2 :: c3 :: _ => c1 = ':' && c2 = ' ' && c3 ≠ '\n'
  | _ => false

/-- After `\([\w-]` has been consumed: the rest of `[\w-]+\)` followed by
`: .+`. -/
def scopeTail : List Char → Bool
  | [] => false
  | c :: rest => if c = ')' then colonSummary rest else isScopeChar c && scopeTail rest

/-- `(\([\w-]+\))?: .+` at the current position: either the summary part
directly, or a parenthesised non-empty scope and then the summary part. -/
def afterType (l : List Char) : Bool :=
  colonSummary l ||
    (match l with
     | c :: c2 :: rest => c = '(' && isScopeChar c2 && scopeTail rest
     | _ => false)

/-- The enumerated commit types of the grammar
`^(feat|fix|chore|docs|refactor|style|test)`. -/
def COMMIT_TYPES : List (List Char) :=
  ["feat".data, "fix".data, "chore".data, "docs".data, "refactor".data,
   "style".data, "test".data]

/-- Does a line match the conventional-commit grammar
`^(feat|fix|chore|docs|refactor|style|test)(\([\w-]+\))?: .+` (anchored at
the start, tail unconstrained as with `re.match`)? -/
def matchesConventional (l : List Char) : Bool :=
  COMMIT_TYPES.any (fun ty => ty.isPrefixOf l && afterType (l.drop ty.length))

/-- Strip markdown-bold wrapping from a line: remove a leading `**` when
present, then a trailing `**` when present. -/
def stripBold (l : List Char) : List Char :=
  let l1 := if "**".data.isPrefixOf l then l.drop 2 else l
  if "**".data.isSuffixOf l1 then l1.take (l1.length - 2) else l1

/-- Modelled from the spec: the scan inside `extract_first_valid_commit_line`
(the function itself is not under `src/`; `cli.py` only has the naive
parser).  Return the first line that, with markdown-bold wrapping stripped,
matches the conventional-commit grammar. -/
def firstValid : List (List Char) → Option (List Char)
  | [] => none
  | l :: ls =>
    if matchesConventional (stripBold l) then some (stripBold l) else firstValid ls

/-- Modelled from the spec: `extract_first_valid_commit_line` — scan the
response's lines for the first that matches the conventional-commit grammar
(after stripping bold-markdown wrapping) and fall back to the fixed sentinel
title `chore: update` when no line matches.  The function is described in
spec §4.4/§8 but absent from `src/`. -/
def extract_first_valid_commit_line (content : List Char) : List Char :=
  match firstValid (toLines content) with
  | some l => l
  | none => "chore: update".data

/-- Modelled from the spec: the file-boundary marker test of per-file diff
splitting (spec §4.1; the splitting code is absent from `src/`) — a line
beginning with the fixed token `diff --git `. -/
def isBoundary (l : List Char) : Bool := "diff --git ".data.isPrefixOf l

/-- Modelled from the spec: path extraction from a boundary line
`diff --git a/<path> b/<path>` by stripping the fixed prefix token
`diff --git a/` and taking the path up to the separating space. -/
def boundaryPath (l : List Char) : List Char :=
  (l.drop "diff --git a/".data.length).takeWhile (fun c => c ≠ ' ')

/-- The boundary line `diff --git a/<path> b/<path>` for a given path
(spec-side constructor used to state claims about the splitter). -/
def boundaryLine (path : List Char) : List Char :=
  "diff --git a/".data ++ path ++ " b/".data ++ path

/-- Modelled from the spec: the line scan of per-file diff splitting
(spec §4.1).  `cur` is the path currently being accumulated under, `acc`
the accumulated lines (the boundary line itself first).  A boundary marker
flushes the previous segment — but never an empty one — and starts a new
one; the final segment is flushed at end of input. -/
def splitDiffGo : List (List Char) → Option (List Char) → List (List Char) →
    List (List Char × List Char)
  | [], none, _ => []
  | [], some p, acc => if acc.isEmpty then [] else [(p, unlines acc)]
  | l :: rest, cur, acc =>
    if isBoundary l then
      match cur with
      | none => splitDiffGo rest (some (boundaryPath l)) [l]
      | some p =>
        if acc.isEmpty then splitDiffGo rest (some (boundaryPath l)) [l]
        else (p, unlines acc) :: splitDiffGo rest (some (boundaryPath l)) [l]
    else
      match cur with
      | none => splitDiffGo rest none acc
      | some p => splitDiffGo rest (some p) (acc ++ [l])

/-- Modelled from the spec: per-file diff splitting — split a combined diff
into a path-to-diff-text association by scanning its lines (spec §4.1; not
under `src/`). -/
def splitDiff (diff : List Char) : List (List Char × List Char) :=
  splitDiffGo (toLines diff) none []

/-! ### Helper lemmas -/

theorem containsAt_append_right (p : List Char → Bool) (a b : List Char)
    (h : containsAt p b = true) : containsAt p (a ++ b) = true := by
  induction a with
  | nil => simpa using h
  | cons c t ih => simp [containsAt, ih]

theorem takeWhile_append_eq_left {p : Char → Bool} (a : List Char) (s : Char)
    (b : List Char) (ha : ∀ c ∈ a, p c = true) (hs : p s = false) :
    (a ++ s :: b).takeWhile p = a := by
  induction a with
  | nil => simp [List.takeWhile_cons, hs]
  | cons c t ih =>
    have hc : p c = true := ha c (by simp)
    simp only [List.cons_append, List.takeWhile_cons, hc, if_true]
    rw [ih (fun d hd => ha d (by simp [hd]))]

theorem dropWhile_append_eq_right {p : Char → Bool} (a : List Char) (s : Char)
    (b : List Char) (ha : ∀ c ∈ a, p c = true) (hs : p s = false) :
    (a ++ s :: b).dropWhile p = s :: b := by
  induction a with
  | nil => simp [List.dropWhile_cons, hs]
  | cons c t ih =>
    have hc : p c = true := ha c (by simp)
    simp only [List.cons_append, List.dropWhile_cons, hc, if_true]
    exact ih (fun d hd => ha d (by simp [hd]))

theorem takeWhile_eq_self_of_all {p : Char → Bool} (l : List Char)
    (h : ∀ c ∈ l, p c = true) : l.takeWhile p = l := by
  induction l with
  | nil => rfl
  | cons c t ih =>
    have hc : p c = true := h c (by simp)
    simp only [List.takeWhile_cons, hc, if_true]
    rw [ih (fun d hd => h d (by simp [hd]))]

theorem dropWhile_eq_nil_of_all {p : Char → Bool} (l : List Char)
    (h : ∀ c ∈ l, p c = true) : l.dropWhile p = [] := by
  induction l with
  | nil => rfl
  | cons c t ih =>
    have hc : p c = true := h c (by simp)
    simp only [List.dropWhile_cons, hc, if_true]
    exact ih (fun d hd => h d (by simp [hd]))

theorem dropWhile_idem (p : Char → Bool) (l : List Char) :
    (l.dropWhile p).dropWhile p = l.dropWhile p := by
  induction l with
  | nil => rfl
  | cons c t ih =>
    by_cases h : p c = true
    · simp [List.dropWhile_cons, h, ih]
    · simp [List.dropWhile_cons, Bool.eq_false_iff.mpr h, h]

theorem dropWhile_head_false {p : Char → Bool} :
    ∀ (l : List Char) (c : Char), (l.dropWhile p).head? = some c → p c = false := by
  intro l
  induction l with
  | nil => intro c h; simp at h
  | cons a t ih =>
    intro c h
    by_cases ha : p a = true
    · rw [List.dropWhile_cons, if_pos ha] at h
      exact ih c h
    · rw [List.dropWhile_cons, if_neg ha] at h
      simp at h
      exact h ▸ Bool.eq_false_iff.mpr ha

theorem dropWhile_of_head_false {p : Char → Bool} (l : List Char)
    (h : ∀ c, l.head? = some c → p c = false) : l.dropWhile p = l := by
  cases l with
  | nil => rfl
  | cons c t =>
    rw [List.dropWhile_cons, if_neg]
    simp [h c rfl]

theorem pyStrip_idem (l : List Char) : pyStrip (pyStrip l) = pyStrip l := by
  unfold pyStrip
  set s := l.dropWhile isWS with hs
  set t := s.reverse.dropWhile isWS with ht
  have h1 : t.reverse.dropWhile isWS = t.reverse := by
    apply dropWhile_of_head_false
    intro c hc
    have hpre : t.reverse <+: s := by
      have hsuf : t <:+ s.reverse := ht ▸ List.dropWhile_suffix _
      have := List.reverse_prefix.mpr hsuf
      simpa using this
    obtain ⟨w, hw⟩ := hpre
    have hshead : s.head? = some c := by
      rw [← hw]
      cases hrev : t.reverse with
      | nil => rw [hrev] at hc; simp at hc
      | cons d u =>
        rw [hrev] at hc
        simp at hc
        simp [hc]
    exact dropWhile_head_false l c (hs ▸ hshead)
  rw [h1, List.reverse_reverse, ht, dropWhile_idem]

theorem pyStrip_head_all_true (l : List Char) (c : Char)
    (h : (pyStrip l).head? = some c) : isWS c = false := by
  unfold pyStrip at h
  set s := l.dropWhile isWS with hs
  set t := s.reverse.dropWhile isWS with ht
  have hpre : t.reverse <+: s := by
    have hsuf : t <:+ s.reverse := ht ▸ List.dropWhile_suffix _
    have := List.reverse_prefix.mpr hsuf
    simpa using this
  obtain ⟨w, hw⟩ := hpre
  have hshead : s.head? = some c := by
    rw [← hw]
    cases hrev : t.reverse with
    | nil => rw [hrev] at h; simp at h
    | cons d u =>
      rw [hrev] at h
      simp at h
      simp [h]
  exact dropWhile_head_false l c (hs ▸ hshead)

/-! ### Theorems settling the claims -/

/-- C4: `is_low_value_commit` returns true iff the title matches at least
one of the three fixed low-value patterns (case-insensitively); moreover,
appending the substring `"minor update"` to any title makes it low-value
(the space matches `\s+` in `minor\s+(change|update)`). -/
theorem low_value_classification :
    (∀ t : String, is_low_value_commit t
        = (containsAt lowPat1At (toLowerL t.data)
            || containsAt lowPat2At (toLowerL t.data)
            || containsAt lowPat3At (toLowerL t.data))) ∧
    (∀ t : String, is_low_value_commit (t ++ "minor update") = true) := by
  constructor
  · intro t
    simp [is_low_value_commit, LOW_VALUE_PATTERNS, Bool.or_assoc]
  · intro t
    have h3 : containsAt lowPat3At (toLowerL ((t ++ "minor update").data)) = true := by
      rw [String.data_append]
      unfold toLowerL
      rw [List.map_append]
      apply containsAt_append_right
      decide
    unfold is_low_value_commit LOW_VALUE_PATTERNS
    simp only [List.any_cons, List.any_nil, Bool.or_false, Bool.or_eq_true]
    exact Or.inr (Or.inr h3)

/-- C7: `make_commit` writes title, blank line, body to the transient
message file when the body is non-empty, the title alone when it is empty,
and invokes `git commit -F` on that file. -/
theorem make_commit_spec (tmp title body : String) :
    (body ≠ "" → (make_commit tmp title body).1 = title ++ "\n\n" ++ body) ∧
    (body = "" → (make_commit tmp title body).1 = title) ∧
    (make_commit tmp title body).2 = ["git", "commit", "-F", tmp] := by
  refine ⟨fun h => ?_, fun h => ?_, rfl⟩ <;> simp [make_commit, h]

/-- Witness for C7 at a concrete non-empty body. -/
theorem make_commit_spec_witness :
    (make_commit "t.txt" "feat: x" "body lines").1 = "feat: x" ++ "\n\n" ++ "body lines" :=
  (make_commit_spec "t.txt" "feat: x" "body lines").1 (by decide)

/-- C8: `get_full_staged_diff` is total in the subprocess result — it
returns the captured stdout on exit code 0 (hence the empty string when
there are no staged changes and stdout is empty) and the empty string, not
an error, on any non-zero exit. -/
theorem staged_diff_total (r : ProcResult) :
    (r.returncode = 0 → get_full_staged_diff r = r.stdout) ∧
    (r.returncode ≠ 0 → get_full_staged_diff r = "") := by
  constructor <;> intro h <;> simp [get_full_staged_diff, h]

/-- Witness for C8 at a concrete failing subprocess result. -/
theorem staged_diff_total_witness : get_full_staged_diff ⟨1, "junk"⟩ = "" :=
  (staged_diff_total ⟨1, "junk"⟩).2 (by decide)

theorem parseNaive_split (l a b : List Char) (ha : '\n' ∉ a)
    (hsplit : pyStrip l = a ++ '\n' :: b) :
    parseNaive l = (pyStrip a, pyStrip b) := by
  have htake : (pyStrip l).takeWhile (fun c => c ≠ '\n') = a := by
    rw [hsplit]
    apply takeWhile_append_eq_left
    · intro c hc
      exact decide_eq_true (fun he => ha (he ▸ hc))
    · decide
  have hdrop : (pyStrip l).dropWhile (fun c => c ≠ '\n') = '\n' :: b := by
    rw [hsplit]
    apply dropWhile_append_eq_right
    · intro c hc
      exact decide_eq_true (fun he => ha (he ▸ hc))
    · decide
  unfold parseNaive
  dsimp only
  rw [htake, hdrop]

theorem parseNaive_nosplit (l : List Char) (h : '\n' ∉ pyStrip l) :
    parseNaive l = (pyStrip l, []) := by
  have htake : (pyStrip l).takeWhile (fun c => c ≠ '\n') = pyStrip l :=
    takeWhile_eq_self_of_all _ (fun c hc => decide_eq_true (fun he => h (he ▸ hc)))
  have hdrop : (pyStrip l).dropWhile (fun c => c ≠ '\n') = [] :=
    dropWhile_eq_nil_of_all _ (fun c hc => decide_eq_true (fun he => h (he ▸ hc)))
  unfold parseNaive
  dsimp only
  rw [htake, hdrop, pyStrip_idem]

/-- C6: naive response parsing — after stripping the raw response, the
title is everything before the first newline (stripped again) and the body
everything after it (stripped); with no newline present, the whole stripped
response is the title and the body is empty. -/
theorem naive_parse_spec (content : String) :
    (∀ a b : List Char, '\n' ∉ a → pyStrip content.data = a ++ '\n' :: b →
        naiveTitle content = ⟨pyStrip a⟩ ∧ naiveBody content = ⟨pyStrip b⟩) ∧
    ('\n' ∉ pyStrip content.data →
        naiveTitle content = ⟨pyStrip content.data⟩ ∧ naiveBody content = "") := by
  constructor
  · intro a b ha hsplit
    have h := parseNaive_split content.data a b ha hsplit
    constructor
    · unfold naiveTitle
      rw [h]
    · unfold naiveBody
      rw [h]
  · intro hn
    have h := parseNaive_nosplit content.data hn
    constructor
    · unfold naiveTitle
      rw [h]
    · unfold naiveBody
      rw [h]

/-- Witness for C6 at a concrete two-line response. -/
theorem naive_parse_spec_witness :
    naiveTitle "  feat: x\nbody " = "feat: x" ∧ naiveBody "  feat: x\nbody " = "body" := by
  have h := (naive_parse_spec "  feat: x\nbody ").1 "feat: x".data "body".data
    (by decide) (by decide)
  exact ⟨h.1.trans (by decide), h.2.trans (by decide)⟩

theorem firstValid_matches : ∀ (ls : List (List Char)) (l : List Char),
    firstValid ls = some l → matchesConventional l = true := by
  intro ls
  induction ls with
  | nil => intro l h; simp [firstValid] at h
  | cons a t ih =>
    intro l h
    by_cases hm : matchesConventional (stripBold a) = true
    · rw [firstValid, if_pos hm] at h
      injection h with h2
      exact h2 ▸ hm
    · rw [firstValid, if_neg hm] at h
      exact ih l h

theorem firstValid_none : ∀ (ls : List (List Char)),
    (∀ l ∈ ls, matchesConventional (stripBold l) = false) → firstValid ls = none := by
  intro ls
  induction ls with
  | nil => intro _; rfl
  | cons a t ih =>
    intro h
    have ha := h a (by simp)
    rw [firstValid, if_neg (by simp [ha])]
    exact ih (fun l hl => h l (by simp [hl]))

theorem firstValid_first :
    ∀ (pre : List (List Char)) (l : List Char) (post : List (List Char)),
    (∀ l' ∈ pre, matchesConventional (stripBold l') = false) →
    matchesConventional (stripBold l) = true →
    firstValid (pre ++ l :: post) = some (stripBold l) := by
  intro pre
  induction pre with
  | nil =>
    intro l post _ hl
    rw [List.nil_append, firstValid, if_pos hl]
  | cons a t ih =>
    intro l post h hl
    have ha := h a (by simp)
    rw [List.cons_append, firstValid, if_neg (by simp [ha])]
    exact ih l post (fun l' hl' => h l' (by simp [hl'])) hl

/-- C1: the validating parsing step always yields a title matching the
conventional-commit grammar; when no line of the response matches, it is
the fixed fallback `chore: update`, and when some line matches, it is the
first matching line with markdown-bold wrapping stripped. -/
theorem extract_valid (content : String) :
    matchesConventional (extract_first_valid_commit_line content.data) = true ∧
    ((∀ l ∈ toLines content.data, matchesConventional (stripBold l) = false) →
        extract_first_valid_commit_line content.data = "chore: update".data) ∧
    (∀ pre l post, toLines content.data = pre ++ l :: post →
        (∀ l' ∈ pre, matchesConventional (stripBold l') = false) →
        matchesConventional (stripBold l) = true →
        extract_first_valid_commit_line content.data = stripBold l) := by
  refine ⟨?_, ?_, ?_⟩
  · unfold extract_first_valid_commit_line
    cases hfv : firstValid (toLines content.data) with
    | none => decide
    | some l => exact firstValid_matches _ l hfv
  · intro h
    unfold extract_first_valid_commit_line
    rw [firstValid_none _ h]
  · intro pre l post hdec h hl
    unfold extract_first_valid_commit_line
    rw [hdec, firstValid_first pre l post h hl]

/-- Witness for C1: the spec's example input, where the first line matches
after bold stripping. -/
theorem extract_valid_witness :
    extract_first_valid_commit_line "**feat(api): add endpoint**\nnotes".data
      = "feat(api): add endpoint".data := by
  have h := (extract_valid "**feat(api): add endpoint**\nnotes").2.2
    [] "**feat(api): add endpoint**".data ["notes".data] (by decide) (by decide) (by decide)
  exact h.trans (by decide)

/-- C3: the confirm/regenerate loop is bounded to 3 generation attempts —
when the staged diff is non-empty, no generated title is low-value, and the
user's three responses are (after defaulting and lowercasing) neither the
accept choice `"y"` nor the skip choice `"s"`, the run makes exactly 3
attempts, shows 3 prompts, ends aborted, and performs no commit. -/
theorem regenerate_bound (diff : String) (resp choice : Nat → String)
    (hdiff : pyStrip diff.data ≠ [])
    (hlow : ∀ i, i < 3 → is_low_value_commit (naiveTitle (resp i)) = false)
    (hch : ∀ i, i < 3 → confirmChoice (choice i) ≠ "y" ∧ confirmChoice (choice i) ≠ "s") :
    generate diff resp choice = ⟨.aborted, 3, 3, []⟩ := by
  have h0 := hlow 0 (by decide)
  have h1 := hlow 1 (by decide)
  have h2 := hlow 2 (by decide)
  have c0 := hch 0 (by decide)
  have c1 := hch 1 (by decide)
  have c2 := hch 2 (by decide)
  unfold generate
  rw [if_neg hdiff]
  show runLoop resp choice 0 (2 + 1) = _
  rw [runLoop]
  simp only [h0, Bool.false_eq_true, if_false, c0.1, c0.2, if_neg, ite_false]
  show (let r := runLoop resp choice 1 (1 + 1); RunResult.mk r.outcome (r.attempts + 1)
    (r.prompts + 1) r.commits) = _
  rw [runLoop]
  simp only [h1, Bool.false_eq_true, if_false, c1.1, c1.2, if_neg, ite_false]
  show (let r := (let r := runLoop resp choice 2 (0 + 1); RunResult.mk r.outcome
    (r.attempts + 1) (r.prompts + 1) r.commits); RunResult.mk r.outcome (r.attempts + 1)
    (r.prompts + 1) r.commits) = _
  rw [runLoop]
  simp only [h2, Bool.false_eq_true, if_false, c2.1, c2.2, if_neg, ite_false]
  rfl

/-- Witness for C3: a benign constant provider reply and three `"r"`
responses exhaust the bound and abort. -/
theorem regenerate_bound_witness :
    generate "+ x" (fun _ => "feat: add x") (fun _ => "r") = ⟨.aborted, 3, 3, []⟩ :=
  regenerate_bound "+ x" (fun _ => "feat: add x") (fun _ => "r")
    (by decide)
    (fun i _ => by show is_low_value_commit (naiveTitle "feat: add x") = false; decide)
    (fun i _ =>
      ⟨by show confirmChoice "r" ≠ "y"; decide, by show confirmChoice "r" ≠ "s"; decide⟩)

/-- C5: whenever the title generated on an attempt is classified low-value,
the loop abandons the run at once — one completion request, no confirmation
prompt, no commit — regardless of the remaining fuel, position, or user
input. -/
theorem low_value_abandons (resp choice : Nat → String) (i fuel : Nat)
    (h : is_low_value_commit (naiveTitle (resp i)) = true) :
    runLoop resp choice i (fuel + 1) = ⟨.lowValueExit, 1, 0, []⟩ := by
  rw [runLoop]
  simp only [h, if_true]

/-- Witness for C5: the spec's example reply `chore: add debug log` is
low-value (it matches `(add|remove) debug`) and aborts the segment. -/
theorem low_value_abandons_witness :
    runLoop (fun _ => "chore: add debug log") (fun _ => "y") 0 3
      = ⟨.lowValueExit, 1, 0, []⟩ :=
  low_value_abandons (fun _ => "chore: add debug log") (fun _ => "y") 0 2 (by decide)

/-- C9: when the stripped staged diff is empty, `generate` short-circuits —
no completion request is issued, no prompt shown, no commit performed, and
the outcome is the clean "no staged changes" exit. -/
theorem no_staged_changes (diff : String) (resp choice : Nat → String)
    (h : pyStrip diff.data = []) :
    generate diff resp choice = ⟨.noStagedChanges, 0, 0, []⟩ := by
  unfold generate
  rw [if_pos h]

/-- Witness for C9: a whitespace-only diff. -/
theorem no_staged_changes_witness :
    generate "  \n " (fun _ => "feat: x") (fun _ => "y")
      = ⟨.noStagedChanges, 0, 0, []⟩ :=
  no_staged_changes "  \n " (fun _ => "feat: x") (fun _ => "y") (by decide)

/-- C10: the confirmation prompt lowercases the user's response and
defaults to `"y"` on empty input; in the loop, an uppercase `"Y"` commits,
an uppercase `"S"` skips, and every non-empty response whose lowercase form
is neither `"y"` nor `"s"` triggers a regeneration step. -/
theorem confirm_semantics (resp choice : Nat → String) (i fuel : Nat)
    (hlow : is_low_value_commit (naiveTitle (resp i)) = false) :
    (∀ input : String, input ≠ "" → confirmChoice input = strLower input) ∧
    confirmChoice "" = "y" ∧
    (choice i = "Y" → runLoop resp choice i (fuel + 1)
        = ⟨.committed, 1, 1, [(naiveTitle (resp i), naiveBody (resp i))]⟩) ∧
    (choice i = "S" → runLoop resp choice i (fuel + 1) = ⟨.skipped, 1, 1, []⟩) ∧
    (strLower (choice i) ≠ "y" → strLower (choice i) ≠ "s" → choice i ≠ "" →
      runLoop resp choice i (fuel + 1)
        = ⟨(runLoop resp choice (i + 1) fuel).outcome,
           (runLoop resp choice (i + 1) fuel).attempts + 1,
           (runLoop resp choice (i + 1) fuel).prompts + 1,
           (runLoop resp choice (i + 1) fuel).commits⟩) := by
  refine ⟨?_, by decide, ?_, ?_, ?_⟩
  · intro input hne
    unfold confirmChoice
    rw [if_neg hne]
  · intro hy
    have hc : confirmChoice (choice i) = "y" := by rw [hy]; decide
    rw [runLoop]
    simp only [hlow, Bool.false_eq_true, if_false, hc, if_true, ite_true]
  · intro hs
    have hc : confirmChoice (choice i) = "s" := by rw [hs]; decide
    rw [runLoop]
    simp only [hlow, Bool.false_eq_true, if_false, hc, ite_true, ite_false]
    rw [if_neg (by decide)]
  · intro hy hs hne
    have hc : confirmChoice (choice i) = strLower (choice i) := by
      unfold confirmChoice
      rw [if_neg hne]
    rw [runLoop]
    simp only [hlow, Bool.false_eq_true, if_false, hc, hy, hs, ite_false, if_neg]

/-- Witness for C10: uppercase `"Y"` leads to a commit with the parsed
title and body. -/
theorem confirm_semantics_witness :
    runLoop (fun _ => "feat: add x\nbody") (fun _ => "Y") 0 3
      = ⟨.committed, 1, 1, [("feat: add x", "body")]⟩ := by
  have h := (confirm_semantics (fun _ => "feat: add x\nbody") (fun _ => "Y") 0 2
    (by decide)).2.2.1 rfl
  exact h.trans (by decide)

theorem isPrefixOf_append_self (l r : List Char) : l.isPrefixOf (l ++ r) = true := by
  induction l with
  | nil => simp
  | cons c t ih => simp [List.isPrefixOf, ih]

theorem isBoundary_boundaryLine (x : List Char) : isBoundary (boundaryLine x) = true := by
  unfold isBoundary boundaryLine
  rw [show "diff --git a/".data = "diff --git ".data ++ "a/".data by decide]
  simp only [List.append_assoc]
  exact isPrefixOf_append_self _ _

theorem boundaryPath_boundaryLine (x : List Char) (hx : ' ' ∉ x) :
    boundaryPath (boundaryLine x) = x := by
  unfold boundaryPath boundaryLine
  rw [show " b/".data = ' ' :: "b/".data by decide]
  rw [show "diff --git a/".data ++ x ++ (' ' :: "b/".data) ++ x
      = "diff --git a/".data ++ (x ++ ' ' :: ("b/".data ++ x)) by simp [List.append_assoc]]
  rw [List.drop_left]
  exact takeWhile_append_eq_left x ' ' ("b/".data ++ x)
    (fun c hc => decide_eq_true (fun he => hx (he ▸ hc))) (by decide)

theorem newline_not_mem_boundaryLine (x : List Char) (h : '\n' ∉ x) :
    '\n' ∉ boundaryLine x := by
  unfold boundaryLine
  intro hmem
  simp only [List.append_assoc, List.mem_append] at hmem
  rcases hmem with h1 | h2 | h3 | h4
  · exact absurd h1 (by decide)
  · exact h h2
  · exact absurd h3 (by decide)
  · exact h h4

theorem toLines_no_newline (l : List Char) (h : '\n' ∉ l) : toLines l = [l] := by
  induction l with
  | nil => rfl
  | cons c t ih =>
    have hc : c ≠ '\n' := fun he => h (he ▸ List.mem_cons_self c t)
    rw [toLines, if_neg hc, ih (fun ht => h (List.mem_cons_of_mem c ht))]

theorem toLines_append (a b : List Char) (ha : '\n' ∉ a) :
    toLines (a ++ '\n' :: b) = a :: toLines b := by
  induction a with
  | nil => rw [List.nil_append, toLines, if_pos rfl]
  | cons c t ih =>
    have hc : c ≠ '\n' := fun he => ha (he ▸ List.mem_cons_self c t)
    rw [List.cons_append, toLines, if_neg hc,
      ih (fun ht => ha (List.mem_cons_of_mem c ht))]

theorem toLines_unlines : ∀ (ls : List (List Char)), ls ≠ [] →
    (∀ l ∈ ls, '\n' ∉ l) → toLines (unlines ls) = ls := by
  intro ls
  induction ls with
  | nil => intro h _; exact absurd rfl h
  | cons a t ih =>
    intro _ h
    cases t with
    | nil =>
      rw [unlines]
      exact toLines_no_newline a (h a (by simp))
    | cons b u =>
      rw [unlines, toLines_append a _ (h a (by simp)),
        ih (by simp) (fun l hl => h l (by simp [hl]))]

theorem splitDiffGo_skip : ∀ (ls rest acc : List (List Char)),
    (∀ l ∈ ls, isBoundary l = false) →
    splitDiffGo (ls ++ rest) none acc = splitDiffGo rest none acc := by
  intro ls
  induction ls with
  | nil => intro rest acc _; rw [List.nil_append]
  | cons a t ih =>
    intro rest acc h
    have ha : isBoundary a = false := h a (by simp)
    rw [List.cons_append, splitDiffGo, if_neg (by simp [ha])]
    exact ih rest acc (fun l hl => h l (by simp [hl]))

theorem splitDiffGo_accum : ∀ (ls rest : List (List Char)) (p : List Char)
    (acc : List (List Char)), (∀ l ∈ ls, isBoundary l = false) →
    splitDiffGo (ls ++ rest) (some p) acc = splitDiffGo rest (some p) (acc ++ ls) := by
  intro ls
  induction ls with
  | nil => intro rest p acc _; rw [List.nil_append, List.append_nil]
  | cons a t ih =>
    intro rest p acc h
    have ha : isBoundary a = false := h a (by simp)
    rw [List.cons_append, splitDiffGo, if_neg (by simp [ha])]
    rw [show acc ++ a :: t = (acc ++ [a]) ++ t by simp]
    exact ih rest p (acc ++ [a]) (fun l hl => h l (by simp [hl]))

theorem splitDiffGo_final (post : List (List Char)) (p : List Char) (a : List Char)
    (acc : List (List Char)) (h : ∀ l ∈ post, isBoundary l = false) :
    splitDiffGo post (some p) (a :: acc) = [(p, unlines ((a :: acc) ++ post))] := by
  have h1 : splitDiffGo (post ++ []) (some p) (a :: acc)
      = splitDiffGo [] (some p) ((a :: acc) ++ post) :=
    splitDiffGo_accum post [] p (a :: acc) h
  rw [List.append_nil] at h1
  rw [h1, splitDiffGo, if_neg (by simp)]

/-- C2: per-file diff splitting of a combined diff whose lines are some
non-boundary preamble, the boundary line for `x`, the body lines of `x`,
the boundary line for `y`, and the body lines of `y`, yields exactly the
two entries for `x` and `y`; each entry's text starts at its own boundary
line and consists only of its own section's lines, the first boundary emits
no empty entry for the preamble, and the final segment is flushed at end of
input. -/
theorem splitDiff_two_files (x y : List Char) (pre mid post : List (List Char))
    (hxs : ' ' ∉ x) (hys : ' ' ∉ y) (hxn : '\n' ∉ x) (hyn : '\n' ∉ y) (hxy : x ≠ y)
    (hpre : ∀ l ∈ pre, isBoundary l = false ∧ '\n' ∉ l)
    (hmid : ∀ l ∈ mid, isBoundary l = false ∧ '\n' ∉ l)
    (hpost : ∀ l ∈ post, isBoundary l = false ∧ '\n' ∉ l) :
    splitDiff (unlines (pre ++ boundaryLine x :: (mid ++ boundaryLine y :: post)))
      = [(x, unlines (boundaryLine x :: mid)), (y, unlines (boundaryLine y :: post))] ∧
    ((splitDiff (unlines (pre ++ boundaryLine x :: (mid ++ boundaryLine y :: post)))).map
      Prod.fst).Nodup := by
  have hbxn : '\n' ∉ boundaryLine x := newline_not_mem_boundaryLine x hxn
  have hbyn : '\n' ∉ boundaryLine y := newline_not_mem_boundaryLine y hyn
  have hnl : ∀ l ∈ pre ++ boundaryLine x :: (mid ++ boundaryLine y :: post), '\n' ∉ l := by
    intro l hl
    simp only [List.mem_append, List.mem_cons] at hl
    rcases hl with h1 | h2 | h3 | h4 | h5
    · exact (hpre l h1).2
    · exact h2 ▸ hbxn
    · exact (hmid l h3).2
    · exact h4 ▸ hbyn
    · exact (hpost l h5).2
  have hmain : splitDiff (unlines (pre ++ boundaryLine x :: (mid ++ boundaryLine y :: post)))
      = [(x, unlines (boundaryLine x :: mid)), (y, unlines (boundaryLine y :: post))] := by
    unfold splitDiff
    rw [toLines_unlines _ (by simp) hnl]
    rw [splitDiffGo_skip pre _ [] (fun l hl => (hpre l hl).1)]
    rw [splitDiffGo, if_pos (isBoundary_boundaryLine x)]
    show splitDiffGo (mid ++ boundaryLine y :: post)
      (some (boundaryPath (boundaryLine x))) [boundaryLine x] = _
    rw [boundaryPath_boundaryLine x hxs]
    rw [splitDiffGo_accum mid _ x [boundaryLine x] (fun l hl => (hmid l hl).1)]
    rw [splitDiffGo, if_pos (isBoundary_boundaryLine y)]
    show ((x, unlines ([boundaryLine x] ++ mid))
        :: splitDiffGo post (some (boundaryPath (boundaryLine y))) [boundaryLine y]) = _
    rw [boundaryPath_boundaryLine y hys]
    rw [splitDiffGo_final post y (boundaryLine y) [] (fun l hl => (hpost l hl).1)]
    rfl
  refine ⟨hmain, ?_⟩
  rw [hmain]
  simp [hxy]

/-- Witness for C2: a concrete two-file combined diff with one body line
per file. -/
theorem splitDiff_two_files_witness :
    splitDiff (unlines [boundaryLine "src/x.py".data, "+a".data,
        boundaryLine "src/y.py".data, "+b".data])
      = [("src/x.py".data, unlines [boundaryLine "src/x.py".data, "+a".data]),
         ("src/y.py".data, unlines [boundaryLine "src/y.py".data, "+b".data])] := by
  have h := splitDiff_two_files "src/x.py".data "src/y.py".data [] ["+a".data] ["+b".data]
    (by decide) (by decide) (by decide) (by decide) (by decide)
    (fun l hl => absurd hl (List.not_mem_nil l))
    (fun l hl => by rw [List.mem_singleton] at hl; subst hl; exact ⟨by decide, by decide⟩)
    (fun l hl => by rw [List.mem_singleton] at hl; subst hl; exact ⟨by decide, by decide⟩)
  exact h.1

end Commitgen
